import Mathlib

/-!
Verification of the Smart Research Assistant (src/app.py).

Strings are modelled as `List Char`.  The app's chunker `split_text`
(src/app.py:59-60) delegates to Python's `textwrap.wrap` with default
options, so CPython's `textwrap.TextWrapper` algorithm (Python 3.11,
`expand_tabs=True`, `tabsize=8`, `replace_whitespace=True`,
`drop_whitespace=True`, `break_long_words=True`, `break_on_hyphens=True`,
empty indents, `max_lines=None`) is embedded below.  Character classes
(`\w`, whitespace, `str.strip`) are modelled on their ASCII parts;
Python floats are modelled as exact rationals.
-/

/-- The six characters of Python's `textwrap._whitespace` = `"\t\n\x0b\x0c\r "`;
also used to model `str.strip()` / `str.isspace` (ASCII part). -/
def isPyWS (c : Char) : Bool :=
  c == '\t' || c == '\n' || c == '\x0b' || c == '\x0c' || c == '\r' || c == ' '

/-- Python regex class `\w` (ASCII part): letters, digits, underscore. -/
def isWordChar (c : Char) : Bool := c.isAlphanum || c == '_'

/-- Python regex class `[^\d\W]` (a word char that is not a digit). -/
def isRegexLetter (c : Char) : Bool := isWordChar c && !c.isDigit

/-- Python `textwrap`'s `word_punct` class `[\w!"'&.,?]`. -/
def isWordPunct (c : Char) : Bool :=
  isWordChar c || c == '!' || c == '"' || c == Char.ofNat 39 ||
  c == '&' || c == '.' || c == ',' || c == '?'

/-- `str.strip()` with no argument (whitespace modelled by `isPyWS`). -/
def pyStrip (l : List Char) : List Char :=
  ((l.dropWhile isPyWS).reverse.dropWhile isPyWS).reverse

/-- `str.lower()` (ASCII case mapping). -/
def pyLower (l : List Char) : List Char := l.map Char.toLower

/-- All characters whitespace; models Python's `chunk.strip() == ''`
(true for the empty string as well). -/
def allWS (l : List Char) : Bool := l.all isPyWS

/-- The non-whitespace characters of a string, in order. -/
def filterNW (l : List Char) : List Char := l.filter (fun c => !isPyWS c)

/-- One step of `str.expandtabs(tabsize)` (CPython: a tab expands to the
next multiple of `tabsize`; the column resets after `\n` and `\r`). -/
def expandTabsGo (tabsize : Nat) (col : Nat) : List Char → List Char
  | [] => []
  | c :: cs =>
    if c == '\t' then
      List.replicate (tabsize - col % tabsize) ' ' ++
        expandTabsGo tabsize (col + (tabsize - col % tabsize)) cs
    else if c == '\n' || c == '\r' then c :: expandTabsGo tabsize 0 cs
    else c :: expandTabsGo tabsize (col + 1) cs

/-- `str.expandtabs(8)` as used by `textwrap` with the default tabsize. -/
def pyExpandTabs (t : List Char) : List Char := expandTabsGo 8 0 t

/-- `TextWrapper._munge_whitespace`: expand tabs, then translate every
`_whitespace` character to a space. -/
def munge (t : List Char) : List Char :=
  (pyExpandTabs t).map (fun c => if isPyWS c then ' ' else c)

/-- Length of the leading run of hyphens. -/
def countLeadHyphens (l : List Char) : Nat :=
  (l.takeWhile (fun c => c == '-')).length

/-- The lookahead `(?=-{2,}\w)` of `wordsep_re`: at least two hyphens
followed by a word character (the greedy `-{2,}` succeeds exactly when
the character after the maximal hyphen run is a word character). -/
def emDashLookahead (cs : List Char) : Bool :=
  decide (2 ≤ countLeadHyphens cs) &&
    (match cs.drop (countLeadHyphens cs) with
     | c :: _ => isWordChar c
     | [] => false)

/-- The lookbehind of `wordsep_re`'s hyphenated-word branch, applied after
the hyphen has been consumed.  `ctxRev` is the text before the current
point, reversed.  Form 1 is `(?<=[^\d\W]{2}-)`, form 2 `(?<=[^\d\W]-[^\d\W]-)`. -/
def hyphenBreakBehind (ctxRev : List Char) : Bool :=
  match ctxRev with
  | '-' :: rest =>
    (match rest with
     | a :: b :: _ => isRegexLetter a && isRegexLetter b
     | _ => false) ||
    (match rest with
     | a :: '-' :: b :: _ => isRegexLetter a && isRegexLetter b
     | _ => false)
  | _ => false

/-- The lookahead `(?=[^\d\W]-?[^\d\W])` of the hyphenated-word branch. -/
def hyphenLookahead : List Char → Bool
  | a :: b :: rest =>
    isRegexLetter a &&
      (isRegexLetter b ||
        (b == '-' && (match rest with | c :: _ => isRegexLetter c | [] => false)))
  | _ => false

/-- The word alternative of `wordsep_re`: starting from a non-whitespace
character, consume `[^ws]+?` non-greedily until the first position where one
of the three terminators fires, in the regex's alternation order:
the hyphenated-word branch (consumes one more `-`), end of word
(`(?=[ws]|\Z)`), or the em-dash lookahead (`(?<=word_punct)(?=-{2,}\w)`).
`prevRev` is the text before the word, reversed; `accRev` the consumed
word characters, reversed (nonempty). Returns the chunk and the rest. -/
def scanWord (prevRev : List Char) (accRev : List Char) :
    List Char → List Char × List Char
  | [] => (accRev.reverse, [])
  | c :: cs =>
    if isPyWS c then (accRev.reverse, c :: cs)
    else if c == '-' && hyphenBreakBehind ('-' :: (accRev ++ prevRev)) &&
        hyphenLookahead cs then
      (accRev.reverse ++ ['-'], cs)
    else if (match accRev with | a :: _ => isWordPunct a | [] => false) &&
        emDashLookahead (c :: cs) then
      (accRev.reverse, c :: cs)
    else scanWord prevRev (c :: accRev) cs

theorem scanWord_snd_length (r : List Char) :
    ∀ p a, ((scanWord p a r).2).length ≤ r.length := by
  induction r with
  | nil => intro p a; simp [scanWord]
  | cons c cs ih =>
    intro p a
    simp only [scanWord]
    split
    · simp
    · split
      · simp
      · split
        · simp
        · exact Nat.le_trans (ih p (c :: a)) (Nat.le_succ cs.length)

/-- `TextWrapper._split` on the munged text: `wordsep_re.split` keeps the
captured separators (the regex matches a nonempty chunk at every position,
so the pieces between matches are empty and are filtered out).  At each
position the regex alternatives are tried in order: a whitespace run
`[ws]+`, a standalone em-dash `(?<=word_punct)-{2,}(?=\w)` (greedy hyphen
run), then a word via `scanWord`. -/
def splitGo (prevRev : List Char) (rest : List Char) : List (List Char) :=
  match rest with
  | [] => []
  | c :: cs =>
    if isPyWS c then
      (c :: cs).takeWhile isPyWS ::
        splitGo (((c :: cs).takeWhile isPyWS).reverse ++ prevRev)
          ((c :: cs).dropWhile isPyWS)
    else if (match prevRev with | p :: _ => isWordPunct p | [] => false) &&
        emDashLookahead (c :: cs) then
      (c :: cs).take (countLeadHyphens (c :: cs)) ::
        splitGo (((c :: cs).take (countLeadHyphens (c :: cs))).reverse ++ prevRev)
          ((c :: cs).drop (countLeadHyphens (c :: cs)))
    else
      (scanWord prevRev [c] cs).1 ::
        splitGo ((scanWord prevRev [c] cs).1.reverse ++ prevRev)
          (scanWord prevRev [c] cs).2
termination_by rest.length
decreasing_by
  · simp only [List.dropWhile]
    rename_i hws
    simp only [hws]
    exact Nat.lt_succ_of_le ((List.dropWhile_sublist isPyWS).length_le)
  · rename_i hcond
    simp only [Bool.and_eq_true, decide_eq_true_eq] at hcond
    have h2 : 2 ≤ countLeadHyphens (c :: cs) := by
      rcases hcond with ⟨-, hem⟩
      simp only [emDashLookahead, Bool.and_eq_true, decide_eq_true_eq] at hem
      exact hem.1
    have h3 : countLeadHyphens (c :: cs) ≤ (c :: cs).length := by
      have := (List.takeWhile_sublist (l := c :: cs)
        (fun x => x == '-')).length_le
      simpa [countLeadHyphens] using this
    simp only [List.length_drop]
    simp only [List.length_cons] at h3 ⊢
    omega
  · have h1 := scanWord_snd_length cs prevRev [c]
    simp only [List.length_cons]
    omega

/-- `TextWrapper._split(_munge_whitespace(text))` with `break_on_hyphens`. -/
def pySplit (t : List Char) : List (List Char) := splitGo [] t

/-- Total length of a list of chunks (Python `sum(map(len, cur_line))`). -/
def sumLen (cs : List (List Char)) : Nat := (cs.map List.length).sum

/-- Termination measure for `_wrap_chunks`: total characters plus chunk count. -/
def measureM (cs : List (List Char)) : Nat := sumLen cs + cs.length

/-- The inner greedy loop of `_wrap_chunks`: pop chunks onto the current
line while the accumulated length stays within `w`. -/
def takeFit (w : Nat) : Nat → List (List Char) → List (List Char) × List (List Char)
  | _, [] => ([], [])
  | curLen, c :: cs =>
    if curLen + c.length ≤ w then
      (c :: (takeFit w (curLen + c.length) cs).1, (takeFit w (curLen + c.length) cs).2)
    else ([], c :: cs)

/-- `str.rfind('-', 0, e)` restricted to a prefix: index of the last hyphen. -/
def lastIdxHyphen : List Char → Option Nat
  | [] => none
  | c :: cs =>
    match lastIdxHyphen cs with
    | some i => some (i + 1)
    | none => if c == '-' then some 0 else none

/-- The split position computed by `_handle_long_word` (`break_long_words`
and `break_on_hyphens` both true): `space_left` characters, except break
after the last hyphen found in the first `space_left` characters when that
hyphen has positive index and a non-hyphen before it. -/
def lwEndIdx (w curLen : Nat) (chunk : List Char) : Nat :=
  let spaceLeft := if w < 1 then 1 else w - curLen
  if spaceLeft < chunk.length then
    match lastIdxHyphen (chunk.take spaceLeft) with
    | some hy =>
      if 0 < hy && (chunk.take hy).any (fun c => !(c == '-')) then hy + 1
      else spaceLeft
    | none => spaceLeft
  else spaceLeft

/-- `TextWrapper._handle_long_word`: move the first `lwEndIdx` characters of
the over-long head chunk onto the current line and leave the remainder. -/
def handle_long_word (w : Nat) (curLine : List (List Char)) (curLen : Nat) :
    List (List Char) → List (List Char) × List (List Char)
  | [] => (curLine, [])
  | chunk :: t =>
    (curLine ++ [chunk.take (lwEndIdx w curLen chunk)],
     chunk.drop (lwEndIdx w curLen chunk) :: t)

/-- One iteration of `_wrap_chunks`' main loop, after the leading-whitespace
drop: greedy fill, then `_handle_long_word` when the next chunk exceeds the
full width.  Returns the current line's chunks and the remaining chunks. -/
def lineStep (w : Nat) (chunks : List (List Char)) : List (List Char) × List (List Char) :=
  match (takeFit w 0 chunks).2 with
  | [] => ((takeFit w 0 chunks).1, [])
  | c :: t =>
    if w < c.length then
      handle_long_word w (takeFit w 0 chunks).1 (sumLen (takeFit w 0 chunks).1) (c :: t)
    else ((takeFit w 0 chunks).1, c :: t)

/-- Drop the final chunk of the line if it is all whitespace
(Python `if cur_line and cur_line[-1].strip() == '': del cur_line[-1]`). -/
def dropTrailingWS (cur : List (List Char)) : List (List Char) :=
  match cur.getLast? with
  | some last => if allWS last then cur.dropLast else cur
  | none => cur

theorem sumLen_append (a b : List (List Char)) :
    sumLen (a ++ b) = sumLen a + sumLen b := by
  simp [sumLen]

theorem measureM_pos {cs : List (List Char)} (h : cs ≠ []) : 1 ≤ measureM cs := by
  cases cs with
  | nil => simp at h
  | cons c t => simp [measureM]; omega

theorem takeFit_append (w : Nat) :
    ∀ (cs : List (List Char)) (n : Nat),
      (takeFit w n cs).1 ++ (takeFit w n cs).2 = cs := by
  intro cs
  induction cs with
  | nil => intro n; simp [takeFit]
  | cons c t ih =>
    intro n
    by_cases h : n + c.length ≤ w
    · simp [takeFit, h, ih]
    · simp [takeFit, h]

theorem takeFit_fst_eq_nil {w n : Nat} {cs : List (List Char)}
    (h : (takeFit w n cs).1 = []) :
    cs = [] ∨ ∃ c t, cs = c :: t ∧ w < n + c.length := by
  cases cs with
  | nil => exact Or.inl rfl
  | cons c t =>
    by_cases hfit : n + c.length ≤ w
    · simp [takeFit, hfit] at h
    · exact Or.inr ⟨c, t, rfl, by omega⟩

theorem lwEndIdx_pos (w : Nat) (chunk : List Char) : 1 ≤ lwEndIdx w 0 chunk := by
  rcases Nat.lt_or_ge w 1 with hw | hw
  · simp only [lwEndIdx, if_pos hw]
    repeat' split
    all_goals omega
  · simp only [lwEndIdx, if_neg (Nat.not_lt.mpr hw)]
    repeat' split
    all_goals omega

theorem measureM_append (a b : List (List Char)) :
    measureM (a ++ b) = measureM a + measureM b := by
  simp only [measureM, sumLen, List.map_append, List.sum_append, List.length_append]
  omega

theorem lineStep_measure_lt {w : Nat} {cs : List (List Char)} (h : cs ≠ []) :
    measureM (lineStep w cs).2 < measureM cs := by
  have happ := takeFit_append w cs 0
  rcases hsnd : (takeFit w 0 cs).2 with _ | ⟨c, t⟩
  · simp only [lineStep, hsnd]
    have h1 := measureM_pos h
    have h0 : measureM ([] : List (List Char)) = 0 := by simp [measureM, sumLen]
    omega
  · rw [hsnd] at happ
    set A := (takeFit w 0 cs).1 with hA
    have hsum : measureM cs = measureM A + (c.length + 1 + measureM t) := by
      rw [← happ, measureM_append]
      have hct : measureM (c :: t) = c.length + 1 + measureM t := by
        simp only [measureM, sumLen, List.map_cons, List.sum_cons, List.length_cons]
        omega
      omega
    by_cases hw : w < c.length
    · simp only [lineStep, hsnd, if_pos hw, handle_long_word, ← hA]
      have hdrop : ∀ e : Nat,
          measureM (List.drop e c :: t) = (c.length - e) + 1 + measureM t := by
        intro e
        simp only [measureM, sumLen, List.map_cons, List.sum_cons, List.length_cons,
          List.length_drop]
        omega
      rw [hdrop]
      rcases eq_or_ne A [] with h0 | h0
      · have he : 1 ≤ lwEndIdx w (sumLen A) c := by
          rw [h0]
          simpa [sumLen] using lwEndIdx_pos w c
        have hm0 : measureM A = 0 := by rw [h0]; simp [measureM, sumLen]
        omega
      · have hm1 : 1 ≤ measureM A := measureM_pos h0
        have hle : c.length - lwEndIdx w (sumLen A) c ≤ c.length := Nat.sub_le _ _
        omega
    · simp only [lineStep, hsnd, if_neg hw, ← hA]
      have hfstne : A ≠ [] := by
        intro h0
        have h0' : (takeFit w 0 cs).1 = [] := by rw [← hA]; exact h0
        rcases takeFit_fst_eq_nil h0' with h1 | ⟨c', t', hct, hlong⟩
        · exact h h1
        · rw [h0] at happ
          simp only [List.nil_append] at happ
          rw [← happ] at hct
          injection hct with h1 h2
          rw [← h1] at hlong
          omega
      have hm1 : 1 ≤ measureM A := measureM_pos hfstne
      have hct : measureM (c :: t) = c.length + 1 + measureM t := by
        simp only [measureM, sumLen, List.map_cons, List.sum_cons, List.length_cons]
        omega
      omega

/-- `TextWrapper._wrap_chunks` (defaults: `drop_whitespace=True`, empty
indents, `max_lines=None`, so every built line is emitted as is).  Each
iteration drops a leading all-whitespace chunk (except before the first
emitted line), fills the line greedily, splits an over-long next chunk via
`_handle_long_word`, drops a trailing all-whitespace chunk, and emits the
concatenation when nonempty.  `hasLines` models Python's `if lines:` test. -/
def wrapChunksGo (w : Nat) (hasLines : Bool) (chunks : List (List Char)) :
    List (List Char) :=
  match chunks with
  | [] => []
  | c0 :: rest0 =>
    let chunks1 := if hasLines && allWS c0 then rest0 else c0 :: rest0
    let cur3 := dropTrailingWS (lineStep w chunks1).1
    if cur3.isEmpty then wrapChunksGo w hasLines (lineStep w chunks1).2
    else cur3.flatten :: wrapChunksGo w true (lineStep w chunks1).2
termination_by measureM chunks
decreasing_by
  all_goals
    by_cases hb : (hasLines && allWS chunk) = true
  all_goals
    first
      | (rw [dif_neg hb]
         exact lineStep_measure_lt (by simp))
      | (rw [dif_pos hb]
         rcases eq_or_ne t [] with h0 | h0
         · subst h0
           have hln : (lineStep w ([] : List (List Char))).2 = [] := by
             simp [lineStep, takeFit]
           rw [hln]
           have hp := @measureM_pos [chunk] (by simp)
           have h0' : measureM ([] : List (List Char)) = 0 := by
             simp [measureM, sumLen]
           omega
         · have h1 := @lineStep_measure_lt w t h0
           have h2 : measureM (chunk :: t) = chunk.length + 1 + measureM t := by
             simp only [measureM, sumLen, List.map_cons, List.sum_cons,
               List.length_cons]
             omega
           omega)

/-- Python `textwrap.wrap(text, width)` with the default `TextWrapper`
options (the `width <= 0` `ValueError` branch is outside the model; the
app only calls it with width 1000). -/
def textwrap_wrap (text : List Char) (width : Nat) : List (List Char) :=
  wrapChunksGo width false (pySplit (munge text))

/-- src/app.py:59-60 — `split_text(text, max_chars)` returns
`wrap(text, max_chars)`. -/
def split_text (text : List Char) (max_chars : Nat) : List (List Char) :=
  textwrap_wrap text max_chars

/-! ## Application-level definitions (src/app.py) -/

/-- src/app.py:89 and :122 — the answer-grounding context for every
question-answering call is `document_text[:2000]`. -/
def qa_context (document_text : List Char) : List Char := document_text.take 2000

/-- Decimal rendering of a natural number (Python `str(i)`). -/
def natRepr (n : Nat) : List Char := (Nat.repr n).toList

/-- The blank-line separator `"\n\n"`. -/
def nnSep : List Char := ['\n', '\n']

/-- src/app.py:71 — `f"{i+1}. {summary_text}\n\n"` for 0-based `i`. -/
def summaryEntry (i : Nat) (s : List Char) : List Char :=
  natRepr (i + 1) ++ ('.' :: ' ' :: s) ++ nnSep

/-- src/app.py:69-71 — the summary accumulation loop over
`enumerate(text_chunks[:5])`; `summarizer` is the external summarization
capability (chunk text to summary text). -/
def summaryLoop (summarizer : List Char → List Char) :
    Nat → List (List Char) → List Char
  | _, [] => []
  | i, c :: cs => summaryEntry i (summarizer c) ++ summaryLoop summarizer (i + 1) cs

/-- src/app.py:69 — the chunks actually summarized: `text_chunks[:5]`. -/
def summarized_chunks (document_text : List Char) : List (List Char) :=
  (split_text document_text 1000).take 5

/-- src/app.py:67-71 — `combined_summary` after the loop. -/
def combined_summary (summarizer : List Char → List Char)
    (document_text : List Char) : List Char :=
  summaryLoop summarizer 0 (summarized_chunks document_text)

/-- src/app.py:73 — the displayed summary `combined_summary.strip()`. -/
def summary_section (summarizer : List Char → List Char)
    (document_text : List Char) : List Char :=
  pyStrip (combined_summary summarizer document_text)

/-- Spec-side entry: a chunk's summary text prefixed with its 1-based
ordinal label (no separator). -/
def specEntry (n : Nat) (s : List Char) : List Char :=
  natRepr n ++ ('.' :: ' ' :: s)

/-- Spec-side list of labeled entries, numbering from `n`. -/
def labeledEntries (summarizer : List Char → List Char) :
    Nat → List (List Char) → List (List Char)
  | _, [] => []
  | n, c :: cs => specEntry n (summarizer c) :: labeledEntries summarizer (n + 1) cs

/-- Spec-side aggregate (4.3): labeled entries separated by blank lines,
in chunk order, with leading/trailing whitespace trimmed. -/
def specSummaryAggregate (summarizer : List Char → List Char)
    (document_text : List Char) : List Char :=
  pyStrip (List.intercalate nnSep
    (labeledEntries summarizer 1 (summarized_chunks document_text)))

/-- Python `str.split('\n')` (e.g. `"".split('\n') == [""]`,
`"a\n\nb".split('\n') == ["a","","b"]`). -/
def pySplitLinesNL : List Char → List (List Char)
  | [] => [[]]
  | c :: cs =>
    if c == '\n' then [] :: pySplitLinesNL cs
    else
      match pySplitLinesNL cs with
      | h :: t => (c :: h) :: t
      | [] => [[c]]

/-- src/app.py:109 — the sentinel used when no usable line was generated. -/
def placeholder_question : List Char := "Unable to generate clear questions.".toList

/-- src/app.py:106-110 — parse the raw generation output into the stored
question list: strip the output, split on newlines, keep the stripped form
of each line whose stripped form is nonempty, substitute the placeholder
when none remain, and truncate to 3. -/
def generated_questions (output : List Char) : List (List Char) :=
  let qs0 := pySplitLinesNL (pyStrip output)
  let qs1 := (qs0.filter (fun q => !(pyStrip q).isEmpty)).map pyStrip
  (if qs1.isEmpty then [placeholder_question] else qs1).take 3

/-- The non-blank lines of the stripped raw generation output (the
"remaining lines" in the claim's wording, before any per-line trimming). -/
def specLines (output : List Char) : List (List Char) :=
  (pySplitLinesNL (pyStrip output)).filter (fun q => !(pyStrip q).isEmpty)

/-- Quiz session state: `st.session_state.questions` and
`st.session_state.user_answers` (src/app.py:99-101). -/
structure QuizState where
  questions : List (List Char)
  user_answers : List (List Char)
deriving DecidableEq

/-- src/app.py:103-111 — the Generate Questions handler: replace the
question list and reset the answers to as many empty strings. -/
def generate_step (output : List Char) : QuizState :=
  { questions := generated_questions output,
    user_answers := List.replicate (generated_questions output).length [] }

/-- src/app.py:116 — answer capture writes one answer slot in place. -/
def set_answer (s : QuizState) (i : Nat) (a : List Char) : QuizState :=
  { s with user_answers := s.user_answers.set i a }

/-- The gate for the Evaluate Answers button: the quiz section renders only
when `st.session_state.questions` is truthy (src/app.py:113) and the button
only when `all(ans.strip() for ans in st.session_state.user_answers)`
(src/app.py:118). -/
def canEvaluate (s : QuizState) : Bool :=
  !s.questions.isEmpty && s.user_answers.all (fun a => !(pyStrip a).isEmpty)

/-- Result of the external extractive QA capability: an answer substring
and a confidence score (a Python float, modelled as an exact rational). -/
structure QAResult where
  answer : List Char
  score : ℚ

/-- Python `round` at ties (banker's rounding, half to even) on exact
rationals. -/
def roundHalfEven (x : ℚ) : ℤ :=
  if x - ⌊x⌋ < 1 / 2 then ⌊x⌋
  else if 1 / 2 < x - ⌊x⌋ then ⌊x⌋ + 1
  else if ⌊x⌋ % 2 = 0 then ⌊x⌋ else ⌊x⌋ + 1

/-- Python `round(v, 2)` on exact rationals. -/
def pyRound2 (v : ℚ) : ℚ := (roundHalfEven (v * 100) : ℚ) / 100

/-- Decimal rendering of a nonnegative rational with at most two decimal
places (the shape produced by `round(_, 2)`), following Python float
`repr`: always at least one fractional digit, no trailing zero in the
hundredths place (`91 ↦ "91.0"`, `91.2 ↦ "91.2"`, `91.25 ↦ "91.25"`). -/
def twoDecRepr (q : ℚ) : List Char :=
  let n : Nat := (⌊q * 100⌋).toNat
  natRepr (n / 100) ++
    ('.' :: (if n % 100 % 10 == 0 then natRepr (n % 100 / 10)
      else if n % 100 < 10 then '0' :: natRepr (n % 100)
      else natRepr (n % 100)))

/-- src/app.py:124,133 — `round(result["score"] * 100, 2)` rendered with a
trailing percent sign. -/
def confDisplay (score : ℚ) : List Char :=
  twoDecRepr (pyRound2 (score * 100)) ++ ['%']

/-- One row of the Evaluation Results output (ephemeral; never stored). -/
structure EvalRecord where
  question : List Char
  user_answer : List Char
  correct : List Char
  verdict : Bool
  confidence : List Char
deriving DecidableEq

/-- src/app.py:121-133 — evaluation of a single (question, user answer)
pair: re-run QA on the 2000-character context, compare trimmed lowercased
strings, format the confidence. -/
def evalOne (qa : List Char → List Char → QAResult)
    (document_text q ua : List Char) : EvalRecord :=
  { question := q, user_answer := ua,
    correct := (qa q (qa_context document_text)).answer,
    verdict := pyLower (pyStrip ua) ==
      pyLower (pyStrip (qa q (qa_context document_text)).answer),
    confidence := confDisplay (qa q (qa_context document_text)).score }

/-- src/app.py:121 — `zip(st.session_state.questions,
st.session_state.user_answers)` evaluated in index order. -/
def evaluate_answers (qa : List Char → List Char → QAResult)
    (document_text : List Char) (s : QuizState) : List EvalRecord :=
  (s.questions.zip s.user_answers).map (fun p => evalOne qa document_text p.1 p.2)

/-- src/app.py:119-134 — the Evaluate Answers handler: it reads the quiz
state and emits display rows; its body contains no assignment to
`st.session_state`, so the state component is returned unchanged. -/
def evaluate_handler (qa : List Char → List Char → QAResult)
    (document_text : List Char) (s : QuizState) : QuizState × List EvalRecord :=
  (s, evaluate_answers qa document_text s)

/-- The quiz operations as a step relation (generation/regeneration with an
arbitrary capability output, answer capture, gated evaluation). -/
inductive QuizStep : QuizState → QuizState → Prop where
  | generate (s : QuizState) (output : List Char) : QuizStep s (generate_step output)
  | answer (s : QuizState) (i : Nat) (a : List Char) : QuizStep s (set_answer s i a)
  | evaluate (s : QuizState) (qa : List Char → List Char → QAResult)
      (document_text : List Char) (h : canEvaluate s = true) :
      QuizStep s (evaluate_handler qa document_text s).1

/-- States reachable from quiz-state initialization (src/app.py:99-101). -/
inductive QuizReachable : QuizState → Prop where
  | init : QuizReachable ⟨[], []⟩
  | step {s t : QuizState} : QuizReachable s → QuizStep s t → QuizReachable t

/-- src/app.py:46-51 — an uploaded file: its declared media type and the
results of the two fallible extraction capabilities (pdfminer
`extract_text`, UTF-8 `decode`), each an `Except` value. -/
structure UploadedFile where
  ftype : List Char
  pdf_extract : Except (List Char) (List Char)
  txt_decode : Except (List Char) (List Char)

/-- src/app.py:46-51 — `extract_file_text`: branch on the declared type;
any unrecognized type yields the empty string with no error possible. -/
def extract_file_text (f : UploadedFile) : Except (List Char) (List Char) :=
  if f.ftype == "application/pdf".toList then f.pdf_extract
  else if f.ftype == "text/plain".toList then f.txt_decode
  else Except.ok []

/-- src/app.py:62,77,95 — the summary, ask-anything and quiz sections all
render only under `if document_text:` (truthiness of the string). -/
def sections_rendered (document_text : List Char) : Bool :=
  !document_text.isEmpty

/-- src/app.py:89 — the ask-anything answer call. -/
def ask_answer (qa : List Char → List Char → QAResult)
    (document_text question : List Char) : QAResult :=
  qa question (qa_context document_text)

/-! ## Helper lemmas -/

theorem dropWhile_append_all {u v : List Char}
    (h : ∀ c ∈ u, isPyWS c = true) :
    (u ++ v).dropWhile isPyWS = v.dropWhile isPyWS := by
  induction u with
  | nil => simp
  | cons c cs ih =>
    simp only [List.cons_append, List.dropWhile]
    rw [h c (by simp)]
    exact ih (fun d hd => h d (by simp [hd]))

theorem pyStrip_append_ws {x a : List Char}
    (h : ∀ c ∈ a, isPyWS c = true) :
    pyStrip (x ++ a) = pyStrip x := by
  simp only [pyStrip]
  rw [List.dropWhile_append]
  by_cases hx : (x.dropWhile isPyWS).isEmpty
  · rw [if_pos hx]
    have ha : a.dropWhile isPyWS = [] := List.dropWhile_eq_nil_iff.mpr (by
      intro c hc; exact h c hc)
    rw [ha]
    have hx' : x.dropWhile isPyWS = [] := by
      cases hh : x.dropWhile isPyWS
      · rfl
      · rw [hh] at hx; simp at hx
    rw [hx']
  · rw [if_neg hx]
    rw [List.reverse_append]
    exact congrArg _ (dropWhile_append_all (fun c hc => h c (by
      simpa using hc)))

theorem nnSep_all_ws : ∀ c ∈ nnSep, isPyWS c = true := by decide

/-! ## C3 -/

/-- C3: the Context Truncator returns exactly the first
`min (length d) 2000` characters of the document, so the context of every
question-answering call (the interactive ask section and each quiz
evaluation call use `qa_context`) has length at most 2000. -/
theorem context_truncator_exact (d : List Char) :
    qa_context d = d.take (min d.length 2000) ∧
    (qa_context d).length = min d.length 2000 ∧
    (qa_context d).length ≤ 2000 ∧
    (∀ qa q, ask_answer qa d q = qa q (qa_context d)) ∧
    (∀ qa q ua, (evalOne qa d q ua).correct = (qa q (qa_context d)).answer) := by
  refine ⟨?_, ?_, ?_, fun qa q => rfl, fun qa q ua => rfl⟩
  · rcases Nat.le_total d.length 2000 with h | h
    · rw [Nat.min_eq_left h, List.take_length]
      exact List.take_of_length_le h
    · rw [Nat.min_eq_right h]; rfl
  · simp [qa_context, List.length_take, Nat.min_comm]
  · simp [qa_context, List.length_take]

/-! ## C4 -/

theorem summaryEntry_eq (i : Nat) (s : List Char) :
    summaryEntry i s = specEntry (i + 1) s ++ nnSep := by
  simp [summaryEntry, specEntry]

theorem summaryLoop_eq (summarizer : List Char → List Char) :
    ∀ (cs : List (List Char)) (i : Nat),
      summaryLoop summarizer i cs =
        List.intercalate nnSep (labeledEntries summarizer (i + 1) cs) ++
          (if cs.isEmpty then [] else nnSep) := by
  intro cs
  induction cs with
  | nil => intro i; simp [summaryLoop, labeledEntries, List.intercalate]
  | cons c t ih =>
    intro i
    simp only [summaryLoop, labeledEntries, ih (i + 1)]
    cases t with
    | nil =>
      simp [labeledEntries, List.intercalate, summaryEntry_eq]
    | cons d u =>
      simp only [List.isEmpty_cons, if_neg Bool.false_ne_true, summaryEntry_eq,
        labeledEntries]
      rw [show List.intercalate nnSep
            (specEntry (i + 1) (summarizer c) ::
              specEntry (i + 1 + 1) (summarizer d) :: labeledEntries summarizer (i + 1 + 1 + 1) u) =
          specEntry (i + 1) (summarizer c) ++ nnSep ++
            List.intercalate nnSep (specEntry (i + 1 + 1) (summarizer d) ::
              labeledEntries summarizer (i + 1 + 1 + 1) u) from by
        simp [List.intercalate, List.intersperse]]
      simp [List.append_assoc]

/-- C4: the Summarizer Adapter consumes `min 5 (number of chunks)` chunks
(one summarization call per consumed chunk, never more than 5), and the
displayed summary equals the spec-side aggregate: the 1-based
ordinal-labeled summary texts, in chunk order, separated by blank lines,
with leading/trailing whitespace trimmed. -/
theorem summarizer_adapter_aggregation (summarizer : List Char → List Char)
    (document_text : List Char) :
    (summarized_chunks document_text).length =
      min 5 (split_text document_text 1000).length ∧
    (summarized_chunks document_text).length ≤ 5 ∧
    summary_section summarizer document_text =
      specSummaryAggregate summarizer document_text := by
  refine ⟨by simp [summarized_chunks], by simp [summarized_chunks], ?_⟩
  simp only [summary_section, combined_summary, specSummaryAggregate]
  rw [summaryLoop_eq]
  cases h : summarized_chunks document_text with
  | nil => simp
  | cons c t =>
    simp only [List.isEmpty_cons, if_neg Bool.false_ne_true]
    exact pyStrip_append_ws nnSep_all_ws

/-! ## C5 -/

/-- C5 counterexample: for the generation output `"a \nb"` the code stores
the whitespace-trimmed lines, not the remaining lines themselves — the
first stored question is `"a"` while the first remaining line is `"a "`. -/
theorem generate_lines_cex :
    generated_questions ('a' :: ' ' :: '\n' :: 'b' :: []) ≠
      (specLines ('a' :: ' ' :: '\n' :: 'b' :: [])).take 3 := by decide

/-- C5 (amended): the Generate transition splits the stripped raw output
into lines, discards whitespace-only lines, keeps the whitespace-trimmed
forms of at most the first 3 remaining lines, substitutes the single
placeholder question when none remain, and resets the answers to empty
strings matching the question count; the two-line scenario yields exactly
2 questions with answer slots `["", ""]`. -/
theorem generate_parse (output : List Char) :
    generated_questions output =
      (if (specLines output).isEmpty then [placeholder_question]
       else ((specLines output).map pyStrip).take 3) ∧
    (generate_step output).user_answers =
      List.replicate (generated_questions output).length [] ∧
    (generated_questions output).length ≤ 3 ∧
    generated_questions output ≠ [] ∧
    generated_questions "What color is the sky?\nWhat is wet?\n".toList =
      ["What color is the sky?".toList, "What is wet?".toList] ∧
    (generate_step "What color is the sky?\nWhat is wet?\n".toList).user_answers =
      [[], []] := by
  refine ⟨?_, rfl, ?_, ?_, by decide, by decide⟩
  · simp only [generated_questions, specLines]
    cases h : (pySplitLinesNL (pyStrip output)).filter
        (fun q => !(pyStrip q).isEmpty) with
    | nil => simp [h]
    | cons x xs => simp [h]
  · simp only [generated_questions]
    exact List.length_take_le 3 _
  · simp only [generated_questions]
    cases h : ((pySplitLinesNL (pyStrip output)).filter
        (fun q => !(pyStrip q).isEmpty)).map pyStrip with
    | nil => simp [h]
    | cons x xs => simp [h]

/-! ## C6 -/

/-- C6: in every state reachable from quiz-state initialization, the
question list and the user-answer list have equal length; every quiz
operation (initialization, generation/regeneration, answer capture,
evaluation) preserves the equality. -/
theorem quiz_length_invariant (s : QuizState) (h : QuizReachable s) :
    s.questions.length = s.user_answers.length := by
  induction h with
  | init => rfl
  | step hr hstep ih =>
    cases hstep with
    | generate output => simp [generate_step]
    | answer i a => simpa [set_answer] using ih
    | evaluate qa document_text hgate => simpa [evaluate_handler] using ih

theorem quiz_length_invariant_witness :
    QuizReachable ⟨[], []⟩ ∧
    (QuizState.mk [] []).questions.length =
      (QuizState.mk [] []).user_answers.length :=
  ⟨QuizReachable.init, quiz_length_invariant _ QuizReachable.init⟩

/-! ## C7 -/

/-- C7: evaluation is gated — whenever the Evaluate button can run,
every answer slot is nonempty after trimming; and for a displayed quiz
(nonempty question list, the situation in which the spec's Evaluate
transition exists) the gate is open exactly when every answer slot is
nonempty after trimming. -/
theorem evaluate_gate_iff (s : QuizState) :
    (canEvaluate s = true → ∀ a ∈ s.user_answers, pyStrip a ≠ []) ∧
    (s.questions ≠ [] →
      (canEvaluate s = true ↔ ∀ a ∈ s.user_answers, pyStrip a ≠ [])) := by
  constructor
  · intro h a ha
    simp only [canEvaluate, Bool.and_eq_true, List.all_eq_true] at h
    have := h.2 a ha
    simpa using this
  · intro hq
    simp only [canEvaluate, Bool.and_eq_true, List.all_eq_true]
    constructor
    · intro h a ha
      have := h.2 a ha
      simpa using this
    · intro h
      refine ⟨?_, fun a ha => by simpa using h a ha⟩
      simpa [List.isEmpty_iff] using hq

theorem evaluate_gate_iff_witness :
    canEvaluate ⟨[['q']], [['x']]⟩ = true ∧
    (∀ a ∈ (QuizState.mk [['q']] [['x']]).user_answers, pyStrip a ≠ []) :=
  ⟨by decide, (evaluate_gate_iff ⟨[['q']], [['x']]⟩).1 (by decide)⟩

/-! ## C8 -/

theorem confDisplay_091 : confDisplay (91 / 100) = "91.0%".toList := by
  have e1 : ((91 : ℚ) / 100) * 100 = 91 := by norm_num
  have e2 : ((91 : ℚ)) * 100 = 9100 := by norm_num
  have hf : ⌊(9100 : ℚ)⌋ = 9100 := by norm_num
  have e3 : pyRound2 91 = 91 := by
    simp only [pyRound2, roundHalfEven, e2, hf]
    norm_num
  simp only [confDisplay, e1, e3, twoDecRepr, e2, hf]
  decide

/-- C8: each (question, user answer) pair is evaluated in index order via
`zip`; the verdict is Correct exactly when the trimmed lowercased user
answer equals the trimmed lowercased QA answer; the confidence is the
score times 100 rounded to 2 decimal places with a percent sign — in the
scenario (answer `"blue"`, score `0.91`, user answer `"Blue"`) the verdict
is Correct and the display is `"91.0%"`. -/
theorem evaluation_verdict_and_confidence
    (qa : List Char → List Char → QAResult)
    (document_text : List Char) (s : QuizState) (q ua : List Char) :
    evaluate_answers qa document_text s =
      (s.questions.zip s.user_answers).map
        (fun p => evalOne qa document_text p.1 p.2) ∧
    ((evalOne qa document_text q ua).verdict = true ↔
      pyLower (pyStrip ua) =
        pyLower (pyStrip (qa q (qa_context document_text)).answer)) ∧
    (evalOne qa document_text q ua).confidence =
      confDisplay (qa q (qa_context document_text)).score ∧
    evaluate_answers (fun _ _ => ⟨"blue".toList, 91 / 100⟩)
        "The sky is blue.".toList
        ⟨["What color is the sky?".toList], ["Blue".toList]⟩ =
      [{ question := "What color is the sky?".toList,
         user_answer := "Blue".toList, correct := "blue".toList,
         verdict := true, confidence := "91.0%".toList }] := by
  refine ⟨rfl, ?_, rfl, ?_⟩
  · simp [evalOne]
  · simp only [evaluate_answers, evalOne, List.zip, List.zipWith, List.map,
      List.cons.injEq, EvalRecord.mk.injEq]
    refine ⟨⟨trivial, trivial, trivial, by decide, confDisplay_091⟩, trivial⟩

/-! ## C9 -/

/-- C9: for any uploaded file whose declared type is neither PDF nor plain
text, extraction returns the empty string along the non-error path (no
capability is invoked, so no error can arise), and the empty document text
renders no summary/QA/quiz section. -/
theorem unsupported_type_silent_noop (f : UploadedFile)
    (h1 : f.ftype ≠ "application/pdf".toList)
    (h2 : f.ftype ≠ "text/plain".toList) :
    extract_file_text f = Except.ok [] ∧
    (∀ t, extract_file_text f = Except.ok t → sections_rendered t = false) := by
  have e : extract_file_text f = Except.ok [] := by
    simp only [extract_file_text]
    rw [if_neg (by simpa using h1), if_neg (by simpa using h2)]
  refine ⟨e, ?_⟩
  intro t ht
  rw [e] at ht
  injection ht with ht'
  rw [← ht']
  rfl

theorem unsupported_type_silent_noop_witness :
    extract_file_text
        ⟨"application/json".toList, Except.error [], Except.ok ['x']⟩ =
      Except.ok [] ∧
    (∀ t, extract_file_text
        ⟨"application/json".toList, Except.error [], Except.ok ['x']⟩ =
          Except.ok t → sections_rendered t = false) :=
  unsupported_type_silent_noop _ (by decide) (by decide)

/-! ## C10 -/

/-- C10: the Evaluate handler does not modify quiz state — the state after
any evaluation run equals the state before it, and the run only produces
the ephemeral per-question records. -/
theorem evaluate_frame (qa : List Char → List Char → QAResult)
    (document_text : List Char) (s : QuizState) :
    (evaluate_handler qa document_text s).1 = s ∧
    (evaluate_handler qa document_text s).1.questions = s.questions ∧
    (evaluate_handler qa document_text s).1.user_answers = s.user_answers ∧
    (evaluate_handler qa document_text s).2 =
      evaluate_answers qa document_text s :=
  ⟨rfl, rfl, rfl, rfl⟩

/-! ## Lemmas about the split phase -/

theorem scanWord_append (r : List Char) :
    ∀ p a, (scanWord p a r).1 ++ (scanWord p a r).2 = a.reverse ++ r := by
  induction r with
  | nil => intro p a; simp [scanWord]
  | cons c cs ih =>
    intro p a
    simp only [scanWord]
    split
    · simp
    · split
      · rename_i hA
        simp only [Bool.and_eq_true, beq_iff_eq] at hA
        obtain ⟨⟨hc, -⟩, -⟩ := hA
        subst hc
        simp
      · split
        · simp
        · rw [ih p (c :: a)]
          simp

theorem scanWord_fst_ne_nil (r : List Char) :
    ∀ p a, a ≠ [] → (scanWord p a r).1 ≠ [] := by
  induction r with
  | nil =>
    intro p a ha
    simpa [scanWord] using ha
  | cons c cs ih =>
    intro p a ha
    simp only [scanWord]
    split
    · simpa using ha
    · split
      · simp
      · split
        · simpa using ha
        · exact ih p (c :: a) (by simp)

set_option maxHeartbeats 1000000 in
theorem splitGo_flatten (prevRev rest : List Char) :
    (splitGo prevRev rest).flatten = rest := by
  induction prevRev, rest using splitGo.induct with
  | case1 p =>
    rw [splitGo.eq_def]
    simp
  | case2 p c cs hws ih =>
    rw [splitGo.eq_def]
    simp only [if_pos hws, List.flatten_cons, ih]
    exact List.takeWhile_append_dropWhile isPyWS (c :: cs)
  | case3 p c cs hws hem ih =>
    rw [splitGo.eq_def]
    simp only [if_neg hws, if_pos hem, List.flatten_cons, ih]
    exact List.take_append_drop _ _
  | case4 p c cs hws hem ih =>
    rw [splitGo.eq_def]
    simp only [if_neg hws, if_neg hem, List.flatten_cons, ih]
    simpa using scanWord_append cs p [c]

set_option maxHeartbeats 1000000 in
theorem splitGo_ne_nil (prevRev rest : List Char) :
    ∀ ch ∈ splitGo prevRev rest, ch ≠ [] := by
  induction prevRev, rest using splitGo.induct with
  | case1 p =>
    rw [splitGo.eq_def]
    simp
  | case2 p c cs hws ih =>
    rw [splitGo.eq_def]
    simp only [if_pos hws]
    intro ch hch
    rcases List.mem_cons.mp hch with h | h
    · subst h
      simp [List.takeWhile_cons, hws]
    · exact ih ch h
  | case3 p c cs hws hem ih =>
    rw [splitGo.eq_def]
    simp only [if_neg hws, if_pos hem]
    intro ch hch
    rcases List.mem_cons.mp hch with h | h
    · subst h
      have h2 : 2 ≤ countLeadHyphens (c :: cs) := by
        simp only [Bool.and_eq_true, decide_eq_true_eq] at hem
        rcases hem with ⟨-, hem2⟩
        simp only [emDashLookahead, Bool.and_eq_true, decide_eq_true_eq] at hem2
        exact hem2.1
      cases hk : countLeadHyphens (c :: cs) with
      | zero => omega
      | succ k => simp [hk]
    · exact ih ch h
  | case4 p c cs hws hem ih =>
    rw [splitGo.eq_def]
    simp only [if_neg hws, if_neg hem]
    intro ch hch
    rcases List.mem_cons.mp hch with h | h
    · subst h
      exact scanWord_fst_ne_nil cs p [c] (by simp)
    · exact ih ch h

/-! ## Lemmas about whitespace munging -/

theorem filterNW_replicate_space (n : Nat) :
    filterNW (List.replicate n ' ') = [] := by
  simp only [filterNW, List.filter_eq_nil_iff]
  intro c hc
  rw [List.eq_of_mem_replicate hc]
  simp [isPyWS]

theorem expandTabsGo_filterNW (tabsize : Nat) :
    ∀ (t : List Char) (col : Nat),
      filterNW (expandTabsGo tabsize col t) = filterNW t := by
  intro t
  induction t with
  | nil => intro col; rfl
  | cons c cs ih =>
    intro col
    simp only [expandTabsGo]
    split
    · rename_i htab
      rw [beq_iff_eq] at htab
      simp only [filterNW, List.filter_append, List.filter_cons]
      rw [show (!isPyWS c) = false by rw [htab]; rfl]
      have := filterNW_replicate_space (tabsize - col % tabsize)
      simp only [filterNW] at this ih
      rw [this, ih]
      simp
    · split
      · rename_i hnl
        have hws : isPyWS c = true := by
          rcases Bool.or_eq_true_iff.mp hnl with h | h <;>
            (rw [beq_iff_eq] at h; subst h; rfl)
        simp only [filterNW, List.filter_cons]
        rw [show (!isPyWS c) = false by rw [hws]; rfl]
        simpa [filterNW] using ih 0
      · simp only [filterNW, List.filter_cons]
        cases hnw : !isPyWS c <;> simpa [hnw, filterNW] using ih (col + 1)

theorem munge_filterNW (t : List Char) : filterNW (munge t) = filterNW t := by
  simp only [munge]
  rw [show filterNW ((pyExpandTabs t).map fun c => if isPyWS c then ' ' else c) =
      filterNW (pyExpandTabs t) from ?_]
  · exact expandTabsGo_filterNW 8 t 0
  · generalize pyExpandTabs t = u
    induction u with
    | nil => rfl
    | cons c cs ih =>
      simp only [List.map_cons, filterNW, List.filter_cons]
      by_cases hws : isPyWS c = true
      · rw [if_pos hws]
        rw [show (!isPyWS ' ') = false from rfl, show (!isPyWS c) = false by
          rw [hws]; rfl]
        simpa [filterNW] using ih
      · rw [if_neg hws]
        have : (!isPyWS c) = true := by
          cases h : isPyWS c
          · rfl
          · exact absurd h hws
        rw [this]
        simpa [filterNW, this] using congrArg (List.cons c) ih

/-! ## Lemmas about the wrap phase -/

theorem filterNW_append (a b : List Char) :
    filterNW (a ++ b) = filterNW a ++ filterNW b := by
  simp [filterNW]

theorem filterNW_allWS {l : List Char} (h : allWS l = true) : filterNW l = [] := by
  simp only [allWS, List.all_eq_true] at h
  simp only [filterNW, List.filter_eq_nil_iff]
  intro c hc
  rw [h c hc]
  simp

theorem lineStep_flatten (w : Nat) (cs : List (List Char)) :
    (lineStep w cs).1.flatten ++ (lineStep w cs).2.flatten = cs.flatten := by
  have happ := takeFit_append w cs 0
  rcases hsnd : (takeFit w 0 cs).2 with _ | ⟨c, t⟩
  · rw [hsnd] at happ
    simp only [lineStep, hsnd]
    conv_rhs => rw [← happ]
    simp
  · rw [hsnd] at happ
    by_cases hw : w < c.length
    · simp only [lineStep, hsnd, if_pos hw, handle_long_word]
      conv_rhs => rw [← happ]
      have hsplice : ∀ (e : Nat) (X : List Char),
          List.take e c ++ (List.drop e c ++ X) = c ++ X := by
        intro e X
        rw [← List.append_assoc, List.take_append_drop]
      simp only [List.flatten_append, List.flatten_cons, List.flatten_nil,
        List.append_nil, List.append_assoc]
      rw [hsplice]
    · simp only [lineStep, hsnd, if_neg hw]
      conv_rhs => rw [← happ]
      simp [List.flatten_append]

theorem dropTrailingWS_filterNW (cur : List (List Char)) :
    filterNW (dropTrailingWS cur).flatten = filterNW cur.flatten := by
  induction cur using List.reverseRecOn with
  | nil => rfl
  | append_singleton xs x ih =>
    simp only [dropTrailingWS, List.getLast?_concat]
    by_cases hx : allWS x = true
    · rw [if_pos hx, List.dropLast_concat]
      rw [List.flatten_append]
      rw [filterNW_append]
      rw [show List.flatten [x] = x by simp, filterNW_allWS hx]
      simp
    · rw [if_neg hx]

theorem wrapChunksGo_nil (w : Nat) (b : Bool) : wrapChunksGo w b [] = [] := by
  rw [wrapChunksGo.eq_def]

theorem wrapChunksGo_cons (w : Nat) (b : Bool) (chunk : List Char)
    (t : List (List Char)) :
    wrapChunksGo w b (chunk :: t) =
      (if (dropTrailingWS (lineStep w
            (if b && allWS chunk then t else chunk :: t)).1).isEmpty then
        wrapChunksGo w b (lineStep w
          (if b && allWS chunk then t else chunk :: t)).2
      else
        (dropTrailingWS (lineStep w
            (if b && allWS chunk then t else chunk :: t)).1).flatten ::
          wrapChunksGo w true (lineStep w
            (if b && allWS chunk then t else chunk :: t)).2) := by
  rw [wrapChunksGo.eq_def]

theorem filterNW_line_split (w : Nat) (cs : List (List Char)) :
    filterNW (dropTrailingWS (lineStep w cs).1).flatten ++
      filterNW (lineStep w cs).2.flatten = filterNW cs.flatten := by
  rw [dropTrailingWS_filterNW, ← filterNW_append, lineStep_flatten]

theorem filterNW_chunks1 (b : Bool) (chunk : List Char) (t : List (List Char)) :
    filterNW ((if b && allWS chunk then t else chunk :: t).flatten) =
      filterNW ((chunk :: t).flatten) := by
  by_cases hb : (b && allWS chunk) = true
  · rw [if_pos hb, List.flatten_cons, filterNW_append,
      filterNW_allWS (Bool.and_elim_right hb)]
    simp
  · rw [if_neg hb]

theorem wrapGo_filterNW (w : Nat) (b : Bool) (chunks : List (List Char)) :
    filterNW (wrapChunksGo w b chunks).flatten = filterNW chunks.flatten := by
  induction b, chunks using wrapChunksGo.induct (w := w) with
  | case1 b => rw [wrapChunksGo_nil]
  | case2 b chunk t c1 c3 hemp ih =>
    have hc1 : c1 = (if b && allWS chunk then t else chunk :: t) := rfl
    have hc3 : c3 =
        dropTrailingWS (lineStep w (if b && allWS chunk then t else chunk :: t)).1 :=
      rfl
    rw [hc1] at ih
    rw [wrapChunksGo_cons, if_pos (hc3 ▸ hemp), ih, ← filterNW_chunks1 b chunk t,
      ← filterNW_line_split w (if b && allWS chunk then t else chunk :: t)]
    have hnil : dropTrailingWS
        (lineStep w (if b && allWS chunk then t else chunk :: t)).1 = [] := by
      have := hc3 ▸ hemp
      exact List.isEmpty_iff.mp this
    rw [hnil]
    simp [filterNW]
  | case3 b chunk t c1 c3 hemp ih =>
    have hc1 : c1 = (if b && allWS chunk then t else chunk :: t) := rfl
    have hc3 : c3 =
        dropTrailingWS (lineStep w (if b && allWS chunk then t else chunk :: t)).1 :=
      rfl
    rw [hc1] at ih
    rw [wrapChunksGo_cons, if_neg (hc3 ▸ hemp)]
    rw [List.flatten_cons, filterNW_append, ih, ← filterNW_chunks1 b chunk t,
      ← filterNW_line_split w (if b && allWS chunk then t else chunk :: t)]

/-! ## C1 -/

/-- C1: concatenating the Chunker's segments (`split_text` with
`max_chars = 1000`) preserves, losslessly and in left-to-right order, the
entire non-whitespace content of the input; only whitespace is adjusted by
the splitting (whitespace normalization and dropped whitespace runs at
segment boundaries). -/
theorem chunker_lossless_reconstruction (text : List Char) :
    filterNW (split_text text 1000).flatten = filterNW text := by
  have h1 := wrapGo_filterNW 1000 false (pySplit (munge text))
  have h2 := splitGo_flatten [] (munge text)
  have h3 := munge_filterNW text
  calc filterNW (split_text text 1000).flatten
      = filterNW (pySplit (munge text)).flatten := h1
    _ = filterNW (munge text) := by rw [show (pySplit (munge text)).flatten =
          munge text from h2]
    _ = filterNW text := h3

/-! ## Lemmas for the single-chunk case -/

theorem sumLen_cons (c : List Char) (t : List (List Char)) :
    sumLen (c :: t) = c.length + sumLen t := by
  simp [sumLen]

theorem takeFit_all (w : Nat) :
    ∀ (cs : List (List Char)) (n : Nat), n + sumLen cs ≤ w →
      takeFit w n cs = (cs, []) := by
  intro cs
  induction cs with
  | nil => intro n h; rfl
  | cons c t ih =>
    intro n h
    rw [sumLen_cons] at h
    have hfit : n + c.length ≤ w := by omega
    have := ih (n + c.length) (by omega)
    simp [takeFit, hfit, this]

theorem expandTabsGo_id (tabsize : Nat) :
    ∀ (t : List Char) (col : Nat), (∀ c ∈ t, isPyWS c = false) →
      expandTabsGo tabsize col t = t := by
  intro t
  induction t with
  | nil => intro col h; rfl
  | cons c cs ih =>
    intro col h
    have hc : isPyWS c = false := h c (by simp)
    have htab : (c == '\t') = false := by
      cases he : c == '\t'
      · rfl
      · rw [beq_iff_eq] at he
        subst he
        simp [isPyWS] at hc
    have hnl : (c == '\n' || c == '\r') = false := by
      cases h1 : c == '\n' <;> cases h2 : c == '\r' <;>
        first
          | rfl
          | (try rw [beq_iff_eq] at h1
             try rw [beq_iff_eq] at h2
             first
               | (subst h1; simp [isPyWS] at hc)
               | (subst h2; simp [isPyWS] at hc))
    simp only [expandTabsGo, htab, hnl, Bool.false_eq_true, if_false]
    rw [ih col.succ (fun d hd => h d (by simp [hd]))]

theorem munge_id {t : List Char} (h : ∀ c ∈ t, isPyWS c = false) :
    munge t = t := by
  simp only [munge, pyExpandTabs]
  rw [expandTabsGo_id 8 t 0 h]
  rw [List.map_congr_left (fun c hc => by rw [h c hc]; rfl : ∀ c ∈ t,
    (if isPyWS c = true then ' ' else c) = id c)]
  exact List.map_id t

theorem dropTrailingWS_id {cur : List (List Char)}
    (h : ∀ ch ∈ cur, allWS ch = false) : dropTrailingWS cur = cur := by
  induction cur using List.reverseRecOn with
  | nil => rfl
  | append_singleton xs x ih =>
    simp only [dropTrailingWS, List.getLast?_concat]
    rw [if_neg (by simp [h x (by simp)])]

theorem wrap_single (w : Nat) (chunks : List (List Char)) (hne : chunks ≠ [])
    (hfit : sumLen chunks ≤ w) (hnws : ∀ ch ∈ chunks, allWS ch = false) :
    wrapChunksGo w false chunks = [chunks.flatten] := by
  obtain ⟨c0, rest0, rfl⟩ : ∃ c0 rest0, chunks = c0 :: rest0 := by
    cases chunks with
    | nil => exact absurd rfl hne
    | cons c0 rest0 => exact ⟨c0, rest0, rfl⟩
  rw [wrapChunksGo_cons]
  simp only [Bool.false_and, Bool.false_eq_true, if_false]
  have htf : takeFit w 0 (c0 :: rest0) = (c0 :: rest0, []) :=
    takeFit_all w (c0 :: rest0) 0 (by omega)
  have hls : lineStep w (c0 :: rest0) = (c0 :: rest0, []) := by
    simp [lineStep, htf]
  rw [hls]
  rw [dropTrailingWS_id hnws]
  rw [if_neg (by simp)]
  rw [wrapChunksGo_nil]

/-! ## C2 -/

/-- C2 counterexample: the empty input has length `0 < 1000` but the
Chunker returns no segment at all (`wrap("") == []`), not one segment
equal to the input. -/
theorem chunker_short_input_cex :
    ([] : List Char).length < 1000 ∧
    split_text ([] : List Char) 1000 = [] ∧
    split_text ([] : List Char) 1000 ≠ [([] : List Char)] := by
  have he : split_text ([] : List Char) 1000 = [] := by
    show wrapChunksGo 1000 false (pySplit (munge [])) = []
    rw [show munge ([] : List Char) = [] from rfl]
    rw [show pySplit ([] : List Char) = [] from by
      rw [pySplit, splitGo.eq_def]]
    exact wrapChunksGo_nil 1000 false
  refine ⟨by decide, he, ?_⟩
  rw [he]
  simp

/-- C2 (amended): for every nonempty input that contains no whitespace
character and whose length is strictly below the chunk maximum, the
Chunker returns exactly one segment, equal to the input.  (The empty input
yields no segment, and inputs containing whitespace can be normalized or
trimmed, so both restrictions are needed.) -/
theorem chunker_short_input_single (text : List Char) (h0 : text ≠ [])
    (h1 : ∀ c ∈ text, isPyWS c = false) (h2 : text.length < 1000) :
    split_text text 1000 = [text] := by
  have hm : munge text = text := munge_id h1
  have hflat : (pySplit text).flatten = text := splitGo_flatten [] text
  have hne : pySplit text ≠ [] := by
    intro hh
    rw [hh] at hflat
    simp only [List.flatten_nil] at hflat
    exact h0 hflat.symm
  have hsum : sumLen (pySplit text) ≤ 1000 := by
    have hlen : (pySplit text).flatten.length = sumLen (pySplit text) := by
      rw [List.length_flatten]
      rfl
    rw [hflat] at hlen
    omega
  have hnws : ∀ ch ∈ pySplit text, allWS ch = false := by
    intro ch hch
    have hchne : ch ≠ [] := splitGo_ne_nil [] text ch hch
    obtain ⟨d, ds, rfl⟩ : ∃ d ds, ch = d :: ds := by
      cases ch with
      | nil => exact absurd rfl hchne
      | cons d ds => exact ⟨d, ds, rfl⟩
    have hd : d ∈ text := by
      rw [← hflat]
      exact List.mem_flatten.mpr ⟨d :: ds, hch, by simp⟩
    simp [allWS, h1 d hd]
  show wrapChunksGo 1000 false (pySplit (munge text)) = [text]
  rw [hm, wrap_single 1000 (pySplit text) hne hsum hnws, hflat]

theorem chunker_short_input_single_witness :
    ("hello".toList ≠ [] ∧ (∀ c ∈ "hello".toList, isPyWS c = false) ∧
      "hello".toList.length < 1000) ∧
    split_text "hello".toList 1000 = ["hello".toList] :=
  ⟨⟨by decide, by decide, by decide⟩,
    chunker_short_input_single _ (by decide) (by decide) (by decide)⟩
